import Mathlib

/-!
# Verification of `treestuff.py`

A shallow embedding of the tree-traversal script `treestuff.py`: generic
preorder / postorder / level-order traversals parameterized by a
children-accessor, several concrete tree representations (nested tuples,
a parsed XML document, linked first-child/next-sibling records), a printing
helper, and an object-oriented facade (`TreeBase`).

Finite, acyclic, rooted trees are embedded as rose trees (`RTree`).  A
"node" of such a tree is the subtree rooted at that position, so the
children-accessor of the rose-tree representation is `RTree.children`.
The Python generators produce their elements in order; we embed each
traversal as the Lean list of the elements it yields.  The Python stack
`s` (popped and extended at its end) is embedded as a Lean list whose
head is the top of the stack; consequently
`s.extend(reversed(list(children_func(node))))` becomes prepending the
children list in order, and `q.popleft()` on the deque becomes taking the
head of a list to whose end children are appended.

Because Python functions may be applied to arbitrary node types whose
children relation need not be well founded, the generic (accessor
polymorphic) forms of the traversals are embedded with explicit fuel,
returning `none` when the fuel runs out; the rose-tree specializations
are total and are related to the fuel forms by adequacy theorems.
-/

/-- A finite, acyclic, rooted tree with values of type `α` and an ordered
list of child subtrees.  This is also the embedding of the nested-tuple
representation from the source: the tuple `(v, (c1, ..., ck))` is
`RTree.node v [c1, ..., ck]`. -/
inductive RTree (α : Type) : Type where
  | node : α → List (RTree α) → RTree α

namespace RTree

variable {α β : Type}

/-- `itemgetter(0)` on a nested-tuple node: its value. -/
def value : RTree α → α
  | .node v _ => v

/-- `itemgetter(1)` on a nested-tuple node: its ordered children.  This is
the canonical deterministic children-accessor of the rose-tree
representation. -/
def children : RTree α → List (RTree α)
  | .node _ ts => ts

mutual

/-- Number of nodes of a tree. -/
def size : RTree α → Nat
  | .node _ ts => 1 + sizeList ts

/-- Total number of nodes of a list of trees. -/
def sizeList : List (RTree α) → Nat
  | [] => 0
  | t :: ts => size t + sizeList ts

end

mutual

/-- `def postorder(node, children_func)` from the source, specialized to
the rose-tree children-accessor: for each child of the node (in accessor
order) yield that child's postorder traversal, then yield the node. -/
def postorder : RTree α → List (RTree α)
  | .node v ts => postorderList ts ++ [.node v ts]

/-- The sequence produced by the `for child in children_func(node)` loop
of `postorder`: the concatenation of the children's postorder traversals
in order. -/
def postorderList : List (RTree α) → List (RTree α)
  | [] => []
  | t :: ts => postorder t ++ postorderList ts

end

/-- The `while s:` loop of `def preorder(node, children_func)` from the
source: pop the top of the stack, yield it, and push its children so that
the leftmost child is on top (the Python `s.extend(reversed(...))` on a
stack whose top is the end of the list; here the head of the list is the
top of the stack, so the children are prepended in order). -/
def preLoop : List (RTree α) → List (RTree α)
  | [] => []
  | t :: s => t :: preLoop (t.children ++ s)
termination_by s => sizeList s
decreasing_by
  have h : ∀ a b : List (RTree α), sizeList (a ++ b) = sizeList a + sizeList b := by
    intro a b
    induction a with
    | nil => simp [sizeList]
    | cons x xs ih => simp [sizeList, ih]; omega
  cases t with
  | node v ts => simp [h, children, sizeList, size]

/-- `def preorder(node, children_func)` from the source, specialized to
the rose-tree children-accessor: the stack starts as `[node]`. -/
def preorder (t : RTree α) : List (RTree α) := preLoop [t]

/-- The `while q:` loop of `def levelorder(node, children_func)` from the
source: pop the front of the FIFO queue, yield it, and append its
children (in accessor order) at the back. -/
def levelLoop : List (RTree α) → List (RTree α)
  | [] => []
  | t :: q => t :: levelLoop (q ++ t.children)
termination_by q => sizeList q
decreasing_by
  have h : ∀ a b : List (RTree α), sizeList (a ++ b) = sizeList a + sizeList b := by
    intro a b
    induction a with
    | nil => simp [sizeList]
    | cons x xs ih => simp [sizeList, ih]; omega
  cases t with
  | node v ts => simp [h, children, sizeList, size]; omega

/-- `def levelorder(node, children_func)` from the source, specialized to
the rose-tree children-accessor: the queue starts as `[node]`. -/
def levelorder (t : RTree α) : List (RTree α) := levelLoop [t]

mutual

/-- The canonical enumeration of the nodes (subtree positions) of a tree:
the root followed by the nodes of each child subtree, in order. -/
def nodes : RTree α → List (RTree α)
  | .node v ts => .node v ts :: nodesList ts

/-- The nodes of a list of trees, in order. -/
def nodesList : List (RTree α) → List (RTree α)
  | [] => []
  | t :: ts => nodes t ++ nodesList ts

end

mutual

/-- The recursive description of preorder given by the specification:
the root first, then, for each child in accessor order, the full preorder
sequence of that child's subtree. -/
def preorderRec : RTree α → List (RTree α)
  | .node v ts => .node v ts :: preorderRecList ts

/-- Concatenation of the recursive preorder sequences of a list of
subtrees, in order. -/
def preorderRecList : List (RTree α) → List (RTree α)
  | [] => []
  | t :: ts => preorderRec t ++ preorderRecList ts

end

/-- The nodes of `t` at depth `d`, in discovery order, as described by the
specification: depth `0` holds exactly the root, and the nodes at depth
`d+1` are the children (in accessor order) of the nodes at depth `d`,
ordered first by their parent's position and then by sibling order. -/
def atDepth : Nat → RTree α → List (RTree α)
  | 0, t => [t]
  | d + 1, t => (atDepth d t).flatMap children

/-- The successive breadth-first levels generated from a starting list of
trees: the list itself, then the levels of the concatenation of all its
children.  Stops when a level is empty. -/
def levelsF : List (RTree α) → List (List (RTree α))
  | [] => []
  | t :: q => (t :: q) :: levelsF ((t :: q).flatMap children)
termination_by l => sizeList l
decreasing_by
  have happ : ∀ a b : List (RTree α), sizeList (a ++ b) = sizeList a + sizeList b := by
    intro a b
    induction a with
    | nil => simp [sizeList]
    | cons x xs ih => simp [sizeList, ih]; omega
  have hfm : ∀ l : List (RTree α), sizeList (l.flatMap children) + l.length = sizeList l := by
    intro l
    induction l with
    | nil => simp [sizeList]
    | cons x xs ih =>
      cases x with
      | node v ts =>
        simp [List.flatMap_cons, happ, sizeList, size, children] at ih ⊢
        omega
  have key : ∀ l : List (RTree α), 0 < l.length → sizeList (l.flatMap children) < sizeList l := by
    intro l hl
    have := hfm l
    omega
  exact key _ (by simp)

mutual

/-- Map a function over every value of a tree, preserving its shape. -/
def mapVal (f : α → β) : RTree α → RTree β
  | .node v ts => .node (f v) (mapValList f ts)

/-- Map a function over every value of each tree in a list. -/
def mapValList (f : α → β) : List (RTree α) → List (RTree β)
  | [] => []
  | t :: ts => mapVal f t :: mapValList f ts

end

end RTree

/-! ## Generic, accessor-polymorphic traversals, instrumented with fuel

These are the source functions themselves, over an arbitrary node type
`ν` and children-accessor `children_func : ν → List ν`.  Each call of the
loop body / each level of recursion consumes one unit of fuel; `none`
means the computation was still running when the fuel ran out. -/

/-- `def preorder(node, children_func)` from the source (the `while s:`
loop on the explicit stack, head of the list = top of the stack), with
fuel.  The traversal of `node` is obtained from the initial stack
`[node]`. -/
def preorderFuel {ν : Type} (children_func : ν → List ν) : Nat → List ν → Option (List ν)
  | _, [] => some []
  | 0, _ :: _ => none
  | fuel + 1, n :: s => (preorderFuel children_func fuel (children_func n ++ s)).map (n :: ·)

/-- `def levelorder(node, children_func)` from the source (the `while q:`
loop on the FIFO queue), with fuel.  The traversal of `node` is obtained
from the initial queue `[node]`. -/
def levelorderFuel {ν : Type} (children_func : ν → List ν) : Nat → List ν → Option (List ν)
  | _, [] => some []
  | 0, _ :: _ => none
  | fuel + 1, n :: q => (levelorderFuel children_func fuel (q ++ children_func n)).map (n :: ·)

mutual

/-- `def postorder(node, children_func)` from the source, with fuel
bounding the recursion depth: yield each child's postorder sequence, then
the node itself. -/
def postorderFuel {ν : Type} (children_func : ν → List ν) : Nat → ν → Option (List ν)
  | 0, _ => none
  | fuel + 1, n => (postorderListFuel children_func fuel (children_func n)).map (· ++ [n])
termination_by fuel _ => (fuel, 0)

/-- The `for child in children_func(node)` loop of `postorder`, with
fuel: concatenate the recursive traversals of the listed nodes. -/
def postorderListFuel {ν : Type} (children_func : ν → List ν) : Nat → List ν → Option (List ν)
  | _, [] => some []
  | fuel, n :: ns => do
    let a ← postorderFuel children_func fuel n
    let b ← postorderListFuel children_func fuel ns
    pure (a ++ b)
termination_by fuel ns => (fuel, ns.length + 1)

end

/-! ## Traversals with a fallible children-accessor

The accessor may raise (`Except.error e`); the embedding returns the list
of nodes the generator yielded before the exception propagated, together
with the exception if one occurred (`none` also on fuel exhaustion, which
stands for a computation still in progress). -/

/-- `preorder` with a fallible accessor: each popped node is yielded
before the accessor is invoked on it, so a node on which the accessor
raises is still produced. -/
def preorderE {ν ε : Type} (children_func : ν → Except ε (List ν)) :
    Nat → List ν → List ν × Option ε
  | _, [] => ([], none)
  | 0, _ :: _ => ([], none)
  | fuel + 1, n :: s =>
    match children_func n with
    | .error e => ([n], some e)
    | .ok cs =>
      let r := preorderE children_func fuel (cs ++ s)
      (n :: r.1, r.2)

/-- `levelorder` with a fallible accessor: each dequeued node is yielded
before the accessor is invoked on it. -/
def levelorderE {ν ε : Type} (children_func : ν → Except ε (List ν)) :
    Nat → List ν → List ν × Option ε
  | _, [] => ([], none)
  | 0, _ :: _ => ([], none)
  | fuel + 1, n :: q =>
    match children_func n with
    | .error e => ([n], some e)
    | .ok cs =>
      let r := levelorderE children_func fuel (q ++ cs)
      (n :: r.1, r.2)

mutual

/-- `postorder` with a fallible accessor: the accessor is invoked on the
node before anything is yielded, so an exception at the node propagates
before any output. -/
def postorderE {ν ε : Type} (children_func : ν → Except ε (List ν)) :
    Nat → ν → List ν × Option ε
  | 0, _ => ([], none)
  | fuel + 1, n =>
    match children_func n with
    | .error e => ([], some e)
    | .ok cs =>
      let r := postorderListE children_func fuel cs
      match r.2 with
      | some e => (r.1, some e)
      | none => (r.1 ++ [n], none)
termination_by fuel _ => (fuel, 0)

/-- The children loop of `postorderE`: stop at the first exception. -/
def postorderListE {ν ε : Type} (children_func : ν → Except ε (List ν)) :
    Nat → List ν → List ν × Option ε
  | _, [] => ([], none)
  | fuel, n :: ns =>
    let a := postorderE children_func fuel n
    match a.2 with
    | some e => (a.1, some e)
    | none =>
      let b := postorderListE children_func fuel ns
      (a.1 ++ b.1, b.2)
termination_by fuel ns => (fuel, ns.length + 1)

end

/-! ## Printing -/

/-- `def print_tree(node, value_func, children_func, traversal_func)`
from the source: for each node of the traversal, `print(value, end=' ')`
emits the rendered value followed by one space; the final `print()` emits
a newline.  The value-accessor here already includes Python's `str`
conversion performed by `print`. -/
def print_tree {ν : Type} (node : ν) (value_func : ν → String)
    (children_func : ν → List ν) (traversal_func : ν → (ν → List ν) → List ν) : String :=
  String.join ((traversal_func node children_func).map (fun n => value_func n ++ " ")) ++ "\n"

/-! ## Concrete representations from the source -/

/-- `simpletree = (1, ((2, ((4, ()), (5, ()))), (3, ())))`. -/
def simpletree : RTree Nat :=
  .node 1 [.node 2 [.node 4 [], .node 5 []], .node 3 []]

/-- A parsed XML element: its `value` attribute and its child elements.
This is the in-memory result of `ET.fromstring`; iterating an element
(`iter`) yields its child elements, and `node.get('value')` reads the
attribute. -/
inductive XNode : Type where
  | elem : String → List XNode → XNode

/-- `iter(node)`: the child elements of an element, in document order. -/
def XNode.xchildren : XNode → List XNode
  | .elem _ cs => cs

/-- `node.get('value')`: the `value` attribute of an element (always
present in the document built by the source). -/
def XNode.xget : XNode → String
  | .elem v _ => v

/-- `xdoc = ET.fromstring(...)`: the parsed form of the inline markup
string of the source, a root element with attribute `1`, children `2`
(with children `4` and `5`) and `3`. -/
def xdoc : XNode :=
  .elem "1" [.elem "2" [.elem "4" [], .elem "5" []], .elem "3" []]

mutual

/-- The abstract tree shape an XML element encodes: values are the
`value` attributes, children are the child elements. -/
def XNode.abs : XNode → RTree String
  | .elem v cs => .node v (XNode.absList cs)

/-- Abstract shapes of a list of elements. -/
def XNode.absList : List XNode → List (RTree String)
  | [] => []
  | x :: xs => XNode.abs x :: XNode.absList xs

end

/-- `Node = collections.namedtuple('Node', 'value first_child next_sibling')`:
a linked record holding a value, an optional first child and an optional
next sibling (`None` is `none`). -/
inductive LNode : Type where
  | mk : Nat → Option LNode → Option LNode → LNode

/-- `attrgetter('value')` on a linked node. -/
def LNode.value : LNode → Nat
  | .mk v _ _ => v

/-- The chain of siblings starting at an optional node, following
`next_sibling` pointers (the `while node:` loop of `def children`). -/
def LNode.siblings : Option LNode → List LNode
  | none => []
  | some (.mk v fc ns) => .mk v fc ns :: LNode.siblings ns

/-- `def children(node)` from the source: start at `node.first_child` and
follow `next_sibling` pointers, yielding each node. -/
def LNode.lchildren : LNode → List LNode
  | .mk _ fc _ => LNode.siblings fc

/-- The abstract tree shape a chain of linked nodes encodes: each node of
the chain becomes a tree whose children are the abstract shapes of its
`first_child` chain.  Values are rendered with `toString`, matching what
`print` writes for an `int`. -/
def LNode.absChain : Option LNode → List (RTree String)
  | none => []
  | some (.mk v fc ns) => .node (toString v) (LNode.absChain fc) :: LNode.absChain ns

/-- The abstract tree shape a linked node encodes. -/
def LNode.abs : LNode → RTree String
  | .mk v fc _ => .node (toString v) (LNode.absChain fc)

/-- `node3 = Node(3, None, None)`. -/
def node3 : LNode := .mk 3 none none

/-- `node5 = Node(5, None, None)`. -/
def node5 : LNode := .mk 5 none none

/-- `node4 = Node(4, None, node5)`. -/
def node4 : LNode := .mk 4 none (some node5)

/-- `node2 = Node(2, node4, node3)`. -/
def node2 : LNode := .mk 2 (some node4) (some node3)

/-- `root = Node(1, node2, None)`. -/
def root : LNode := .mk 1 (some node2) none

/-- A representation `(children_func, value_func)` over node type `ν`
encodes abstract tree shapes via the abstraction map `h` when `h`
commutes with the children-accessors and preserves rendered values. -/
def Encodes {ν : Type} (children_func : ν → List ν) (value_func : ν → String)
    (h : ν → RTree String) : Prop :=
  ∀ n, (h n).children = (children_func n).map h ∧ (h n).value = value_func n

/-! ## The object-oriented facade -/

/-- `class TreeBase(ABC)`: the abstract capability set `root()`,
`children(node)`, `value(node)` an adapter must provide.  A concrete
adapter is a record of these three capabilities. -/
structure TreeBase (ν γ : Type) where
  root : ν
  children : ν → List ν
  value : ν → γ

namespace TreeBase

variable {ν γ : Type}

/-- The `while s:` loop of the method `TreeBase.preorder`, identical to
the free function but reading the accessor from the object. -/
def preorderGo (tb : TreeBase ν γ) : Nat → List ν → Option (List ν)
  | _, [] => some []
  | 0, _ :: _ => none
  | fuel + 1, n :: s => (preorderGo tb fuel (tb.children n ++ s)).map (n :: ·)

/-- The method `TreeBase.preorder`: the stack starts as `[self.root()]`. -/
def preorderM (tb : TreeBase ν γ) (fuel : Nat) : Option (List ν) :=
  preorderGo tb fuel [tb.root]

/-- The `while q:` loop of the method `TreeBase.levelorder`. -/
def levelorderGo (tb : TreeBase ν γ) : Nat → List ν → Option (List ν)
  | _, [] => some []
  | 0, _ :: _ => none
  | fuel + 1, n :: q => (levelorderGo tb fuel (q ++ tb.children n)).map (n :: ·)

/-- The method `TreeBase.levelorder`: the queue starts as `[self.root()]`. -/
def levelorderM (tb : TreeBase ν γ) (fuel : Nat) : Option (List ν) :=
  levelorderGo tb fuel [tb.root]

mutual

/-- The inner `_postorder` of the method `TreeBase.postorder`. -/
def postorderGo (tb : TreeBase ν γ) : Nat → ν → Option (List ν)
  | 0, _ => none
  | fuel + 1, n => (postorderListGo tb fuel (tb.children n)).map (· ++ [n])
termination_by fuel _ => (fuel, 0)

/-- The children loop of `_postorder`. -/
def postorderListGo (tb : TreeBase ν γ) : Nat → List ν → Option (List ν)
  | _, [] => some []
  | fuel, n :: ns => do
    let a ← postorderGo tb fuel n
    let b ← postorderListGo tb fuel ns
    pure (a ++ b)
termination_by fuel ns => (fuel, ns.length + 1)

end

/-- The method `TreeBase.postorder`: `yield from _postorder(self.root())`. -/
def postorderM (tb : TreeBase ν γ) (fuel : Nat) : Option (List ν) :=
  postorderGo tb fuel tb.root

end TreeBase

/-- The second `def print_tree(tree, traverser)` of the source (which
shadows the first): print `tree.value(node)` for each node the traverser
produced, each followed by one space, then a newline.  `toS` is Python's
`str` conversion applied by `print`. -/
def print_tree2 {ν γ : Type} (tree : TreeBase ν γ) (toS : γ → String) (produced : List ν) :
    String :=
  String.join (produced.map (fun n => toS (tree.value n) ++ " ")) ++ "\n"

/-! ## Helper lemmas -/

theorem measure_ind {β : Type} (m : β → Nat) (P : β → Prop)
    (ih : ∀ x, (∀ y, m y < m x → P y) → P x) : ∀ x, P x := by
  have H : ∀ n x, m x < n → P x := by
    intro n
    induction n with
    | zero => intro x hx; omega
    | succ n IH => intro x _; exact ih x (fun y hy => IH y (by omega))
  exact fun x => H (m x + 1) x (by omega)

namespace RTree

variable {α β : Type}

theorem treeInd (P : RTree α → Prop) (Q : List (RTree α) → Prop)
    (hnode : ∀ v ts, Q ts → P (.node v ts))
    (hnil : Q []) (hcons : ∀ t ts, P t → Q ts → Q (t :: ts)) :
    (∀ t, P t) ∧ (∀ l, Q l) := by
  have htree : ∀ t, P t := fun t =>
    RTree.rec (motive_1 := fun t => P t) (motive_2 := fun l => Q l)
      (fun v ts h => hnode v ts h) hnil (fun t ts ht hts => hcons t ts ht hts) t
  refine ⟨htree, ?_⟩
  intro l
  induction l with
  | nil => exact hnil
  | cons t ts ih => exact hcons t ts (htree t) ih

theorem size_pos (t : RTree α) : 0 < size t := by
  cases t with
  | node v ts => simp [size]

theorem size_children (t : RTree α) : size t = 1 + sizeList t.children := by
  cases t with
  | node v ts => simp [size, children]

theorem sizeList_append (a b : List (RTree α)) :
    sizeList (a ++ b) = sizeList a + sizeList b := by
  induction a with
  | nil => simp [sizeList]
  | cons x xs ih => simp [sizeList, ih]; omega

theorem size_le_sizeList_of_mem {t : RTree α} {l : List (RTree α)} (h : t ∈ l) :
    size t ≤ sizeList l := by
  induction l with
  | nil => cases h
  | cons x xs ih =>
    rcases List.mem_cons.1 h with h1 | h2
    · subst h1; simp [sizeList]
    · have := ih h2; simp [sizeList]; omega

theorem nodesList_append (a b : List (RTree α)) :
    nodesList (a ++ b) = nodesList a ++ nodesList b := by
  induction a with
  | nil => simp [nodesList]
  | cons x xs ih => simp [nodesList, ih]

theorem nodes_length_all :
    (∀ t : RTree α, (nodes t).length = size t) ∧
      (∀ l : List (RTree α), (nodesList l).length = sizeList l) := by
  refine treeInd _ _ ?_ ?_ ?_
  · intro v ts h
    simp [nodes, size, h]
    omega
  · simp [nodesList, sizeList]
  · intro t ts ht hts
    simp [nodesList, sizeList, ht, hts]

theorem preorderRecList_append (a b : List (RTree α)) :
    preorderRecList (a ++ b) = preorderRecList a ++ preorderRecList b := by
  induction a with
  | nil => simp [preorderRecList]
  | cons x xs ih => simp [preorderRecList, ih]

theorem nodes_eq_preorderRec_all :
    (∀ t : RTree α, nodes t = preorderRec t) ∧
      (∀ l : List (RTree α), nodesList l = preorderRecList l) := by
  refine treeInd _ _ ?_ ?_ ?_
  · intro v ts h
    simp [nodes, preorderRec, h]
  · simp [nodesList, preorderRecList]
  · intro t ts ht hts
    simp [nodesList, preorderRecList, ht, hts]

theorem preLoop_eq_preorderRecList :
    ∀ s : List (RTree α), preLoop s = preorderRecList s := by
  refine measure_ind sizeList _ ?_
  intro s ih
  match s with
  | [] => simp [preLoop, preorderRecList]
  | t :: s =>
    rw [preLoop]
    have hlt : sizeList (t.children ++ s) < sizeList (t :: s) := by
      have := size_children t
      simp [sizeList_append, sizeList]
      omega
    rw [ih _ hlt, preorderRecList_append]
    cases t with
    | node v ts => simp [preorderRec, preorderRecList, children]

theorem preorder_eq_preorderRec (t : RTree α) : preorder t = preorderRec t := by
  rw [preorder, preLoop_eq_preorderRecList]
  simp [preorderRecList]

theorem postorderList_eq_flatten (l : List (RTree α)) :
    postorderList l = (l.map postorder).flatten := by
  induction l with
  | nil => simp [postorderList]
  | cons t ts ih => simp [postorderList, ih]

theorem postorder_perm_nodes_all :
    (∀ t : RTree α, (postorder t).Perm (nodes t)) ∧
      (∀ l : List (RTree α), (postorderList l).Perm (nodesList l)) := by
  refine treeInd _ _ ?_ ?_ ?_
  · intro v ts h
    rw [postorder, nodes]
    have h1 : (postorderList ts ++ [RTree.node v ts]).Perm
        (nodesList ts ++ [RTree.node v ts]) := h.append_right _
    have h2 : (nodesList ts ++ [RTree.node v ts]).Perm
        ([RTree.node v ts] ++ nodesList ts) := List.perm_append_comm
    simpa using h1.trans h2
  · simp [postorderList, nodesList]
  · intro t ts ht hts
    rw [postorderList, nodesList]
    exact ht.append hts

theorem sizeList_flatMap (l : List (RTree α)) :
    sizeList (l.flatMap children) + l.length = sizeList l := by
  induction l with
  | nil => simp [sizeList]
  | cons x xs ih =>
    cases x with
    | node v ts =>
      simp [List.flatMap_cons, sizeList_append, sizeList, size, children] at ih ⊢
      omega

theorem levelLoop_append :
    ∀ a b : List (RTree α), levelLoop (a ++ b) = a ++ levelLoop (b ++ a.flatMap children) := by
  intro a
  induction a with
  | nil => intro b; simp
  | cons t a' ih =>
    intro b
    have h1 : (t :: a') ++ b = t :: (a' ++ b) := rfl
    rw [h1, levelLoop, List.append_assoc, ih (b ++ t.children)]
    simp [List.flatMap_cons]

theorem levelLoop_unfold (q : List (RTree α)) :
    levelLoop q = q ++ levelLoop (q.flatMap children) := by
  have := levelLoop_append q ([] : List (RTree α))
  simpa using this

theorem levelLoop_perm_nodesList :
    ∀ q : List (RTree α), (levelLoop q).Perm (nodesList q) := by
  refine measure_ind sizeList _ ?_
  intro q ih
  match q with
  | [] => simp [levelLoop, nodesList]
  | t :: q' =>
    rw [levelLoop]
    have hlt : sizeList (q' ++ t.children) < sizeList (t :: q') := by
      have := size_children t
      simp [sizeList_append, sizeList]
      omega
    have h1 := ih _ hlt
    rw [nodesList_append] at h1
    have h2 : (nodesList q' ++ nodesList t.children).Perm
        (nodesList t.children ++ nodesList q') := List.perm_append_comm
    have h3 : nodesList (t :: q') = (t :: nodesList t.children) ++ nodesList q' := by
      cases t with
      | node v ts => simp [nodesList, nodes, children]
    rw [h3]
    exact (h1.trans h2).cons t

theorem levelLoop_eq_flatten_levelsF :
    ∀ q : List (RTree α), levelLoop q = (levelsF q).flatten := by
  refine measure_ind sizeList _ ?_
  intro q ih
  match q with
  | [] => simp [levelLoop, levelsF]
  | t :: q' =>
    have hne : sizeList ((t :: q').flatMap children) < sizeList (t :: q') := by
      have := sizeList_flatMap (t :: q')
      simp at this ⊢
      omega
    rw [levelLoop_unfold, levelsF, List.flatten_cons, ih _ hne]

theorem iterate_flatMap_nil (d : Nat) :
    (fun l : List (RTree α) => l.flatMap children)^[d] [] = [] := by
  induction d with
  | zero => simp
  | succ d ih => rw [Function.iterate_succ_apply]; simpa using ih

theorem levelsF_getD :
    ∀ (d : Nat) (q : List (RTree α)),
      (levelsF q).getD d [] = (fun l : List (RTree α) => l.flatMap children)^[d] q := by
  intro d
  induction d with
  | zero =>
    intro q
    match q with
    | [] => simp [levelsF]
    | t :: q' => simp [levelsF]
  | succ d ih =>
    intro q
    match q with
    | [] =>
      rw [levelsF, Function.iterate_succ_apply]
      simpa using (iterate_flatMap_nil d).symm ▸ (by simp [List.getD] : ([] : List (List (RTree α))).getD (d+1) [] = [])
    | t :: q' =>
      rw [levelsF, Function.iterate_succ_apply]
      simpa using ih ((t :: q').flatMap children)

theorem atDepth_eq_iterate (d : Nat) (t : RTree α) :
    atDepth d t = (fun l : List (RTree α) => l.flatMap children)^[d] [t] := by
  induction d with
  | zero => simp [atDepth]
  | succ d ih => rw [atDepth, ih, Function.iterate_succ_apply']

theorem levelsF_ne_nil :
    ∀ q : List (RTree α), ∀ l ∈ levelsF q, l ≠ [] := by
  refine measure_ind sizeList _ ?_
  intro q ih
  match q with
  | [] => simp [levelsF]
  | t :: q' =>
    intro l hl
    rw [levelsF] at hl
    rcases List.mem_cons.1 hl with h1 | h2
    · subst h1; simp
    · have hne : sizeList ((t :: q').flatMap children) < sizeList (t :: q') := by
        have := sizeList_flatMap (t :: q')
        simp at this ⊢
        omega
      exact ih _ hne l h2

end RTree

theorem preorderFuel_adequate {α : Type} :
    ∀ (fuel : Nat) (s : List (RTree α)), RTree.sizeList s ≤ fuel →
      preorderFuel RTree.children fuel s = some (RTree.preLoop s) := by
  intro fuel
  induction fuel with
  | zero =>
    intro s hs
    match s with
    | [] => simp [preorderFuel, RTree.preLoop]
    | t :: s' =>
      have := RTree.size_pos t
      simp [RTree.sizeList] at hs
      omega
  | succ fuel ih =>
    intro s hs
    match s with
    | [] => simp [preorderFuel, RTree.preLoop]
    | t :: s' =>
      have hb : RTree.sizeList (t.children ++ s') ≤ fuel := by
        have := RTree.size_children t
        rw [RTree.sizeList_append]
        simp [RTree.sizeList] at hs
        omega
      rw [preorderFuel, ih _ hb, RTree.preLoop]
      simp

theorem levelorderFuel_adequate {α : Type} :
    ∀ (fuel : Nat) (q : List (RTree α)), RTree.sizeList q ≤ fuel →
      levelorderFuel RTree.children fuel q = some (RTree.levelLoop q) := by
  intro fuel
  induction fuel with
  | zero =>
    intro q hq
    match q with
    | [] => simp [levelorderFuel, RTree.levelLoop]
    | t :: q' =>
      have := RTree.size_pos t
      simp [RTree.sizeList] at hq
      omega
  | succ fuel ih =>
    intro q hq
    match q with
    | [] => simp [levelorderFuel, RTree.levelLoop]
    | t :: q' =>
      have hb : RTree.sizeList (q' ++ t.children) ≤ fuel := by
        have := RTree.size_children t
        rw [RTree.sizeList_append]
        simp [RTree.sizeList] at hq
        omega
      rw [levelorderFuel, ih _ hb, RTree.levelLoop]
      simp

theorem postorderFuel_adequate_all {α : Type} :
    ∀ fuel : Nat,
      (∀ t : RTree α, RTree.size t ≤ fuel →
        postorderFuel RTree.children fuel t = some (RTree.postorder t)) ∧
      (∀ l : List (RTree α), (∀ t ∈ l, RTree.size t ≤ fuel) →
        postorderListFuel RTree.children fuel l = some (RTree.postorderList l)) := by
  intro fuel
  induction fuel with
  | zero =>
    constructor
    · intro t ht
      have := RTree.size_pos t
      omega
    · intro l hl
      match l with
      | [] => simp [postorderListFuel, RTree.postorderList]
      | t :: ts =>
        have := RTree.size_pos t
        have := hl t (by simp)
        omega
  | succ fuel ih =>
    have htree : ∀ t : RTree α, RTree.size t ≤ fuel + 1 →
        postorderFuel RTree.children (fuel + 1) t = some (RTree.postorder t) := by
      intro t ht
      have hb : ∀ c ∈ t.children, RTree.size c ≤ fuel := by
        intro c hc
        have h1 := RTree.size_le_sizeList_of_mem hc
        have h2 := RTree.size_children t
        omega
      rw [postorderFuel, ih.2 _ hb]
      cases t with
      | node v ts => simp [RTree.postorder, RTree.children]
    refine ⟨htree, ?_⟩
    intro l hl
    induction l with
    | nil => simp [postorderListFuel, RTree.postorderList]
    | cons t ts ihl =>
      rw [postorderListFuel, htree t (hl t (by simp)), ihl (fun x hx => hl x (by simp [hx]))]
      simp [RTree.postorderList]

theorem preorderFuel_cyclic :
    ∀ fuel : Nat, preorderFuel (fun _ : Unit => [()]) fuel [()] = none := by
  intro fuel
  induction fuel with
  | zero => simp [preorderFuel]
  | succ fuel ih => rw [preorderFuel]; simpa using ih

theorem levelorderFuel_cyclic :
    ∀ fuel : Nat, levelorderFuel (fun _ : Unit => [()]) fuel [()] = none := by
  intro fuel
  induction fuel with
  | zero => simp [levelorderFuel]
  | succ fuel ih => rw [levelorderFuel]; simpa using ih

theorem postorderFuel_cyclic :
    ∀ fuel : Nat, postorderFuel (fun _ : Unit => [()]) fuel () = none := by
  intro fuel
  induction fuel with
  | zero => simp [postorderFuel]
  | succ fuel ih =>
    rw [postorderFuel]
    have : postorderListFuel (fun _ : Unit => [()]) fuel [()] = none := by
      rw [postorderListFuel, ih]
      rfl
    simp [this]

theorem preorderFuel_hom {ν ν' : Type} (cf : ν → List ν) (cf' : ν' → List ν')
    (h : ν → ν') (hc : ∀ n, cf' (h n) = (cf n).map h) :
    ∀ (fuel : Nat) (s : List ν),
      preorderFuel cf' fuel (s.map h) = (preorderFuel cf fuel s).map (List.map h) := by
  intro fuel
  induction fuel with
  | zero =>
    intro s
    match s with
    | [] => simp [preorderFuel]
    | n :: s' => simp [preorderFuel]
  | succ fuel ih =>
    intro s
    match s with
    | [] => simp [preorderFuel]
    | n :: s' =>
      have harg : cf' (h n) ++ s'.map h = (cf n ++ s').map h := by
        rw [List.map_append, hc]
      rw [List.map_cons, preorderFuel, harg, ih, preorderFuel]
      cases preorderFuel cf fuel (cf n ++ s') with
      | none => rfl
      | some l => rfl

theorem levelorderFuel_hom {ν ν' : Type} (cf : ν → List ν) (cf' : ν' → List ν')
    (h : ν → ν') (hc : ∀ n, cf' (h n) = (cf n).map h) :
    ∀ (fuel : Nat) (q : List ν),
      levelorderFuel cf' fuel (q.map h) = (levelorderFuel cf fuel q).map (List.map h) := by
  intro fuel
  induction fuel with
  | zero =>
    intro q
    match q with
    | [] => simp [levelorderFuel]
    | n :: q' => simp [levelorderFuel]
  | succ fuel ih =>
    intro q
    match q with
    | [] => simp [levelorderFuel]
    | n :: q' =>
      have harg : q'.map h ++ cf' (h n) = (q' ++ cf n).map h := by
        rw [List.map_append, hc]
      rw [List.map_cons, levelorderFuel, harg, ih, levelorderFuel]
      cases levelorderFuel cf fuel (q' ++ cf n) with
      | none => rfl
      | some l => rfl

theorem postorderFuel_hom_all {ν ν' : Type} (cf : ν → List ν) (cf' : ν' → List ν')
    (h : ν → ν') (hc : ∀ n, cf' (h n) = (cf n).map h) :
    ∀ fuel : Nat,
      (∀ n, postorderFuel cf' fuel (h n) = (postorderFuel cf fuel n).map (List.map h)) ∧
      (∀ l : List ν,
        postorderListFuel cf' fuel (l.map h) = (postorderListFuel cf fuel l).map (List.map h)) := by
  intro fuel
  induction fuel with
  | zero =>
    constructor
    · intro n; simp [postorderFuel]
    · intro l
      match l with
      | [] => simp [postorderListFuel]
      | n :: ns => simp [postorderListFuel, postorderFuel, Option.bind]
  | succ fuel ih =>
    have htree : ∀ n,
        postorderFuel cf' (fuel + 1) (h n) = (postorderFuel cf (fuel + 1) n).map (List.map h) := by
      intro n
      rw [postorderFuel, postorderFuel, hc, ih.2]
      cases postorderListFuel cf fuel (cf n) with
      | none => rfl
      | some l => simp
    refine ⟨htree, ?_⟩
    intro l
    induction l with
    | nil => simp [postorderListFuel]
    | cons n ns ihl =>
      rw [List.map_cons, postorderListFuel, postorderListFuel, htree, ihl]
      cases postorderFuel cf (fuel + 1) n with
      | none => rfl
      | some a =>
        cases postorderListFuel cf (fuel + 1) ns with
        | none => rfl
        | some b => simp

theorem TreeBase.preorderGo_eq_free {ν γ : Type} (tb : TreeBase ν γ) :
    ∀ (fuel : Nat) (s : List ν), tb.preorderGo fuel s = preorderFuel tb.children fuel s := by
  intro fuel
  induction fuel with
  | zero =>
    intro s
    match s with
    | [] => simp [TreeBase.preorderGo, preorderFuel]
    | n :: s' => simp [TreeBase.preorderGo, preorderFuel]
  | succ fuel ih =>
    intro s
    match s with
    | [] => simp [TreeBase.preorderGo, preorderFuel]
    | n :: s' => rw [TreeBase.preorderGo, preorderFuel, ih]

theorem TreeBase.levelorderGo_eq_free {ν γ : Type} (tb : TreeBase ν γ) :
    ∀ (fuel : Nat) (q : List ν), tb.levelorderGo fuel q = levelorderFuel tb.children fuel q := by
  intro fuel
  induction fuel with
  | zero =>
    intro q
    match q with
    | [] => simp [TreeBase.levelorderGo, levelorderFuel]
    | n :: q' => simp [TreeBase.levelorderGo, levelorderFuel]
  | succ fuel ih =>
    intro q
    match q with
    | [] => simp [TreeBase.levelorderGo, levelorderFuel]
    | n :: q' => rw [TreeBase.levelorderGo, levelorderFuel, ih]

theorem TreeBase.postorderGo_eq_free_all {ν γ : Type} (tb : TreeBase ν γ) :
    ∀ fuel : Nat,
      (∀ n, tb.postorderGo fuel n = postorderFuel tb.children fuel n) ∧
      (∀ l : List ν, tb.postorderListGo fuel l = postorderListFuel tb.children fuel l) := by
  intro fuel
  induction fuel with
  | zero =>
    constructor
    · intro n; simp [TreeBase.postorderGo, postorderFuel]
    · intro l
      match l with
      | [] => simp [TreeBase.postorderListGo, postorderListFuel]
      | n :: ns =>
        simp [TreeBase.postorderListGo, postorderListFuel, TreeBase.postorderGo, postorderFuel]
  | succ fuel ih =>
    have htree : ∀ n, tb.postorderGo (fuel + 1) n = postorderFuel tb.children (fuel + 1) n := by
      intro n
      rw [TreeBase.postorderGo, postorderFuel, ih.2]
    refine ⟨htree, ?_⟩
    intro l
    induction l with
    | nil => simp [TreeBase.postorderListGo, postorderListFuel]
    | cons n ns ihl => rw [TreeBase.postorderListGo, postorderListFuel, htree, ihl]

theorem XNode.absList_eq_map (l : List XNode) : XNode.absList l = l.map XNode.abs := by
  induction l with
  | nil => simp [XNode.absList]
  | cons x xs ih => simp [XNode.absList, XNode.abs, ih]

theorem XNode.xnodeEncodes : Encodes XNode.xchildren XNode.xget XNode.abs := by
  intro n
  cases n with
  | elem v cs =>
    constructor
    · simp [XNode.abs, RTree.children, XNode.xchildren, XNode.absList_eq_map]
    · simp [XNode.abs, RTree.value, XNode.xget]

theorem LNode.linkInd (P : LNode → Prop) (Q : Option LNode → Prop)
    (hmk : ∀ v fc ns, Q fc → Q ns → P (.mk v fc ns))
    (hnone : Q none) (hsome : ∀ n, P n → Q (some n)) :
    (∀ n, P n) ∧ (∀ o, Q o) := by
  have htree : ∀ n, P n := fun n =>
    LNode.rec (motive_1 := fun n => P n) (motive_2 := fun o => Q o)
      (fun v fc ns hfc hns => hmk v fc ns hfc hns) hnone (fun n hn => hsome n hn) n
  refine ⟨htree, ?_⟩
  intro o
  match o with
  | none => exact hnone
  | some n => exact hsome n (htree n)

theorem LNode.absChain_eq_map :
    ∀ o : Option LNode, LNode.absChain o = (LNode.siblings o).map LNode.abs := by
  have key := LNode.linkInd
    (fun n => LNode.absChain (match n with | .mk _ _ ns => ns) =
      (LNode.siblings (match n with | .mk _ _ ns => ns)).map LNode.abs)
    (fun o => LNode.absChain o = (LNode.siblings o).map LNode.abs)
    (fun v fc ns _ hns => hns)
    (by simp [LNode.absChain, LNode.siblings])
    (by
      intro n hn
      cases n with
      | mk v fc ns =>
        simp at hn
        simp [LNode.absChain, LNode.siblings, LNode.abs, hn])
  exact key.2

theorem LNode.lnodeEncodes :
    Encodes LNode.lchildren (fun n => toString n.value) LNode.abs := by
  intro n
  cases n with
  | mk v fc ns =>
    constructor
    · simp [LNode.abs, RTree.children, LNode.lchildren, LNode.absChain_eq_map]
    · simp [LNode.abs, RTree.value, LNode.value]

theorem RTree.mapValList_eq_map {α β : Type} (f : α → β) (l : List (RTree α)) :
    RTree.mapValList f l = l.map (RTree.mapVal f) := by
  induction l with
  | nil => simp [RTree.mapValList]
  | cons t ts ih => simp [RTree.mapValList, ih]

theorem RTree.mapVal_encodes {α : Type} (f : α → String) :
    Encodes RTree.children (fun t : RTree α => f t.value) (RTree.mapVal f) := by
  intro t
  cases t with
  | node v ts =>
    constructor
    · simp [RTree.mapVal, RTree.children, RTree.mapValList_eq_map]
    · simp [RTree.mapVal, RTree.value]

theorem String.join_cons_eq (a : String) (l : List String) :
    String.join (a :: l) = a ++ String.join l := by
  apply String.ext
  simp [String.data_join]

theorem String.intercalate_go_spec :
    ∀ (l : List String) (acc : String),
      String.intercalate.go acc " " l ++ " " =
        acc ++ " " ++ String.join (l.map (fun x => x ++ " ")) := by
  intro l
  induction l with
  | nil =>
    intro acc
    simp [String.intercalate.go, String.join]
  | cons a as ih =>
    intro acc
    rw [String.intercalate.go, ih, List.map_cons, String.join_cons_eq]
    simp [String.append_assoc]

theorem join_space_eq_intercalate (x : String) (l : List String) :
    String.join ((x :: l).map (fun v => v ++ " ")) =
      String.intercalate " " (x :: l) ++ " " := by
  rw [List.map_cons, String.join_cons_eq, String.intercalate, String.intercalate_go_spec]

theorem encodes_preorder_values {ν : Type} (cf : ν → List ν) (vf : ν → String)
    (h : ν → RTree String) (e : Encodes cf vf h) (fuel : Nat) (r : ν) :
    (preorderFuel cf fuel [r]).map (List.map vf) =
      (preorderFuel RTree.children fuel [h r]).map (List.map RTree.value) := by
  have hc : ∀ n, RTree.children (h n) = (cf n).map h := fun n => (e n).1
  have hvf : (RTree.value ∘ h) = vf := funext (fun n => (e n).2)
  have hhom := preorderFuel_hom cf RTree.children h hc fuel [r]
  rw [List.map_cons, List.map_nil] at hhom
  rw [hhom]
  cases preorderFuel cf fuel [r] with
  | none => rfl
  | some l => simp [List.map_map, hvf]

theorem encodes_levelorder_values {ν : Type} (cf : ν → List ν) (vf : ν → String)
    (h : ν → RTree String) (e : Encodes cf vf h) (fuel : Nat) (r : ν) :
    (levelorderFuel cf fuel [r]).map (List.map vf) =
      (levelorderFuel RTree.children fuel [h r]).map (List.map RTree.value) := by
  have hc : ∀ n, RTree.children (h n) = (cf n).map h := fun n => (e n).1
  have hvf : (RTree.value ∘ h) = vf := funext (fun n => (e n).2)
  have hhom := levelorderFuel_hom cf RTree.children h hc fuel [r]
  rw [List.map_cons, List.map_nil] at hhom
  rw [hhom]
  cases levelorderFuel cf fuel [r] with
  | none => rfl
  | some l => simp [List.map_map, hvf]

theorem encodes_postorder_values {ν : Type} (cf : ν → List ν) (vf : ν → String)
    (h : ν → RTree String) (e : Encodes cf vf h) (fuel : Nat) (r : ν) :
    (postorderFuel cf fuel r).map (List.map vf) =
      (postorderFuel RTree.children fuel (h r)).map (List.map RTree.value) := by
  have hc : ∀ n, RTree.children (h n) = (cf n).map h := fun n => (e n).1
  have hvf : (RTree.value ∘ h) = vf := funext (fun n => (e n).2)
  have hhom := (postorderFuel_hom_all cf RTree.children h hc fuel).1 r
  rw [hhom]
  cases postorderFuel cf fuel r with
  | none => rfl
  | some l => simp [List.map_map, hvf]

/-! ## The claims -/

/-- Claim C1: for every finite, acyclic, rooted tree with node count `n`,
each of the three traversal functions (preorder, postorder, levelorder),
applied to the root with the deterministic children-accessor, produces a
sequence containing exactly `n` nodes, with every node of the tree
occurring exactly once (the output is a permutation of the canonical node
enumeration, which has length `n`). -/
theorem claim1_each_traversal_visits_every_node_once {α : Type} (t : RTree α) :
    t.nodes.length = t.size ∧
    (t.preorder.Perm t.nodes ∧ t.preorder.length = t.size) ∧
    (t.postorder.Perm t.nodes ∧ t.postorder.length = t.size) ∧
    (t.levelorder.Perm t.nodes ∧ t.levelorder.length = t.size) := by
  have hn : t.nodes.length = t.size := (RTree.nodes_length_all).1 t
  have hpre : t.preorder = t.nodes := by
    rw [RTree.preorder_eq_preorderRec, ← (RTree.nodes_eq_preorderRec_all).1]
  have hpost : t.postorder.Perm t.nodes := (RTree.postorder_perm_nodes_all).1 t
  have hlev : t.levelorder.Perm t.nodes := by
    have h1 := RTree.levelLoop_perm_nodesList [t]
    have h2 : RTree.nodesList [t] = t.nodes := by simp [RTree.nodesList]
    rw [RTree.levelorder]
    exact h2 ▸ h1
  refine ⟨hn, ⟨?_, ?_⟩, ⟨hpost, ?_⟩, ⟨hlev, ?_⟩⟩
  · rw [hpre]
  · rw [hpre, hn]
  · rw [hpost.length_eq, hn]
  · rw [hlev.length_eq, hn]

/-- Claim C2: the iterative stack algorithm of `preorder` yields exactly
the recursive preorder sequence: the root first, then, for each child in
accessor (left-to-right) order, the full preorder sequence of that
child's subtree. -/
theorem claim2_preorder_matches_recursive_definition {α : Type} (t : RTree α) :
    t.preorder = t.preorderRec ∧ t.preorder.head? = some t := by
  have h := RTree.preorder_eq_preorderRec t
  refine ⟨h, ?_⟩
  rw [h]
  cases t with
  | node v ts => simp [RTree.preorderRec]

/-- Claim C3: `postorder` yields, for each child in accessor order, the
full postorder sequence of that child's subtree, then the node itself
last; consequently the root is the last element of the sequence. -/
theorem claim3_postorder_children_first_root_last {α : Type} (t : RTree α) :
    t.postorder = (t.children.map RTree.postorder).flatten ++ [t] ∧
    t.postorder.getLast? = some t := by
  have h : t.postorder = (t.children.map RTree.postorder).flatten ++ [t] := by
    cases t with
    | node v ts => rw [RTree.postorder, RTree.postorderList_eq_flatten, RTree.children]
  exact ⟨h, by rw [h]; exact List.getLast?_concat _⟩

/-- Claim C4: `levelorder` yields nodes in order of non-decreasing depth
from the root: its output is the concatenation of the depth levels
`0, 1, 2, ...` (all the non-empty ones), where the nodes of each level
appear ordered first by their parent's position in the previous level and
then by the accessor's sibling order (the content of `RTree.atDepth`). -/
theorem claim4_levelorder_in_nondecreasing_depth {α : Type} (t : RTree α) :
    ∃ k : Nat,
      t.levelorder = ((List.range k).map (fun d => RTree.atDepth d t)).flatten ∧
      (∀ d, k ≤ d → RTree.atDepth d t = []) ∧
      (∀ d, d < k → RTree.atDepth d t ≠ []) := by
  refine ⟨(RTree.levelsF [t]).length, ?_, ?_, ?_⟩
  · have hmap : (List.range (RTree.levelsF [t]).length).map (fun d => RTree.atDepth d t) =
        RTree.levelsF [t] := by
      apply List.ext_getElem
      · simp
      · intro n h1 h2
        simp only [List.getElem_map, List.getElem_range]
        rw [RTree.atDepth_eq_iterate, ← RTree.levelsF_getD]
        rw [List.getD_eq_getElem?_getD, List.getElem?_eq_getElem h2]
        rfl
    rw [hmap, RTree.levelorder, RTree.levelLoop_eq_flatten_levelsF]
  · intro d hd
    rw [RTree.atDepth_eq_iterate, ← RTree.levelsF_getD]
    exact List.getD_eq_default _ _ hd
  · intro d hd
    rw [RTree.atDepth_eq_iterate, ← RTree.levelsF_getD]
    rw [List.getD_eq_getElem?_getD, List.getElem?_eq_getElem hd]
    exact RTree.levelsF_ne_nil [t] _ (List.getElem_mem hd)

/-- Claim C5: for the concrete five-node tree encoded by `simpletree`
(root `1`, children `2 → [4, 5]` and `3`), the value sequences are
`1 2 4 5 3` (preorder), `4 5 2 3 1` (postorder) and `1 2 3 4 5`
(level-order). -/
theorem claim5_simpletree_value_sequences :
    (RTree.preorder simpletree).map RTree.value = [1, 2, 4, 5, 3] ∧
    (RTree.postorder simpletree).map RTree.value = [4, 5, 2, 3, 1] ∧
    (RTree.levelorder simpletree).map RTree.value = [1, 2, 3, 4, 5] := by
  refine ⟨?_, ?_, ?_⟩ <;>
    simp [simpletree, RTree.preorder, RTree.preLoop, RTree.postorder, RTree.postorderList,
      RTree.levelorder, RTree.levelLoop, RTree.children, RTree.value]

/-- Claim C6: each traversal method of the object-oriented facade
(`TreeBase`), applied to an adapter exposing root/children/value,
produces exactly the same sequence of nodes as the corresponding free
function applied with the adapter's accessors — and hence byte-identical
printed output for any rendering of the values. -/
theorem claim6_facade_matches_free_functions {ν γ : Type} (tb : TreeBase ν γ) (fuel : Nat)
    (toS : γ → String) :
    (tb.preorderM fuel = preorderFuel tb.children fuel [tb.root] ∧
      (tb.preorderM fuel).map (print_tree2 tb toS) =
        (preorderFuel tb.children fuel [tb.root]).map (print_tree2 tb toS)) ∧
    (tb.postorderM fuel = postorderFuel tb.children fuel tb.root ∧
      (tb.postorderM fuel).map (print_tree2 tb toS) =
        (postorderFuel tb.children fuel tb.root).map (print_tree2 tb toS)) ∧
    (tb.levelorderM fuel = levelorderFuel tb.children fuel [tb.root] ∧
      (tb.levelorderM fuel).map (print_tree2 tb toS) =
        (levelorderFuel tb.children fuel [tb.root]).map (print_tree2 tb toS)) := by
  have h1 : tb.preorderM fuel = preorderFuel tb.children fuel [tb.root] := by
    rw [TreeBase.preorderM, TreeBase.preorderGo_eq_free]
  have h2 : tb.postorderM fuel = postorderFuel tb.children fuel tb.root := by
    rw [TreeBase.postorderM, (TreeBase.postorderGo_eq_free_all tb fuel).1]
  have h3 : tb.levelorderM fuel = levelorderFuel tb.children fuel [tb.root] := by
    rw [TreeBase.levelorderM, TreeBase.levelorderGo_eq_free]
  exact ⟨⟨h1, by rw [h1]⟩, ⟨h2, by rw [h2]⟩, ⟨h3, by rw [h3]⟩⟩

/-- Claim C7: for any abstract tree shape (an `RTree String`) encoded
simultaneously by three representations — each given by a node type, a
children-accessor, a value-accessor and an abstraction map commuting
with the accessors (`Encodes`), with the three roots encoding the same
abstract tree — each traversal kind applied with each representation's
accessors yields the identical sequence of printed values.  The source's
instances are the nested-tuple `simpletree`, the parsed document `xdoc`
and the linked-sibling `root`, all encoding the 1-(2-(4,5),3) shape. -/
theorem claim7_representations_yield_identical_values {ν₁ ν₂ ν₃ : Type}
    (cf₁ : ν₁ → List ν₁) (vf₁ : ν₁ → String) (h₁ : ν₁ → RTree String) (r₁ : ν₁)
    (cf₂ : ν₂ → List ν₂) (vf₂ : ν₂ → String) (h₂ : ν₂ → RTree String) (r₂ : ν₂)
    (cf₃ : ν₃ → List ν₃) (vf₃ : ν₃ → String) (h₃ : ν₃ → RTree String) (r₃ : ν₃)
    (e₁ : Encodes cf₁ vf₁ h₁) (e₂ : Encodes cf₂ vf₂ h₂) (e₃ : Encodes cf₃ vf₃ h₃)
    (hr₁₂ : h₁ r₁ = h₂ r₂) (hr₂₃ : h₂ r₂ = h₃ r₃) (fuel : Nat) :
    ((preorderFuel cf₁ fuel [r₁]).map (List.map vf₁) =
        (preorderFuel cf₂ fuel [r₂]).map (List.map vf₂) ∧
      (preorderFuel cf₂ fuel [r₂]).map (List.map vf₂) =
        (preorderFuel cf₃ fuel [r₃]).map (List.map vf₃)) ∧
    ((postorderFuel cf₁ fuel r₁).map (List.map vf₁) =
        (postorderFuel cf₂ fuel r₂).map (List.map vf₂) ∧
      (postorderFuel cf₂ fuel r₂).map (List.map vf₂) =
        (postorderFuel cf₃ fuel r₃).map (List.map vf₃)) ∧
    ((levelorderFuel cf₁ fuel [r₁]).map (List.map vf₁) =
        (levelorderFuel cf₂ fuel [r₂]).map (List.map vf₂) ∧
      (levelorderFuel cf₂ fuel [r₂]).map (List.map vf₂) =
        (levelorderFuel cf₃ fuel [r₃]).map (List.map vf₃)) := by
  refine ⟨⟨?_, ?_⟩, ⟨?_, ?_⟩, ⟨?_, ?_⟩⟩
  · rw [encodes_preorder_values cf₁ vf₁ h₁ e₁, encodes_preorder_values cf₂ vf₂ h₂ e₂, hr₁₂]
  · rw [encodes_preorder_values cf₂ vf₂ h₂ e₂, encodes_preorder_values cf₃ vf₃ h₃ e₃, hr₂₃]
  · rw [encodes_postorder_values cf₁ vf₁ h₁ e₁, encodes_postorder_values cf₂ vf₂ h₂ e₂, hr₁₂]
  · rw [encodes_postorder_values cf₂ vf₂ h₂ e₂, encodes_postorder_values cf₃ vf₃ h₃ e₃, hr₂₃]
  · rw [encodes_levelorder_values cf₁ vf₁ h₁ e₁, encodes_levelorder_values cf₂ vf₂ h₂ e₂, hr₁₂]
  · rw [encodes_levelorder_values cf₂ vf₂ h₂ e₂, encodes_levelorder_values cf₃ vf₃ h₃ e₃, hr₂₃]

/-- Witness for C7: the nested-tuple `simpletree` (values rendered by
`toString`), the parsed document `xdoc` and the linked-sibling structure
rooted at `root` all encode the same abstract 1-(2-(4,5),3) tree, and at
fuel 16 the three representations' traversal value sequences coincide. -/
theorem claim7_witness :
    Encodes RTree.children (fun t : RTree Nat => toString t.value) (RTree.mapVal toString) ∧
    Encodes XNode.xchildren XNode.xget XNode.abs ∧
    Encodes LNode.lchildren (fun n => toString n.value) LNode.abs ∧
    RTree.mapVal toString simpletree = XNode.abs xdoc ∧
    XNode.abs xdoc = LNode.abs root ∧
    (((preorderFuel RTree.children 16 [simpletree]).map
          (List.map (fun t : RTree Nat => toString t.value)) =
        (preorderFuel XNode.xchildren 16 [xdoc]).map (List.map XNode.xget) ∧
      (preorderFuel XNode.xchildren 16 [xdoc]).map (List.map XNode.xget) =
        (preorderFuel LNode.lchildren 16 [root]).map (List.map (fun n => toString n.value))) ∧
    ((postorderFuel RTree.children 16 simpletree).map
          (List.map (fun t : RTree Nat => toString t.value)) =
        (postorderFuel XNode.xchildren 16 xdoc).map (List.map XNode.xget) ∧
      (postorderFuel XNode.xchildren 16 xdoc).map (List.map XNode.xget) =
        (postorderFuel LNode.lchildren 16 root).map (List.map (fun n => toString n.value))) ∧
    ((levelorderFuel RTree.children 16 [simpletree]).map
          (List.map (fun t : RTree Nat => toString t.value)) =
        (levelorderFuel XNode.xchildren 16 [xdoc]).map (List.map XNode.xget) ∧
      (levelorderFuel XNode.xchildren 16 [xdoc]).map (List.map XNode.xget) =
        (levelorderFuel LNode.lchildren 16 [root]).map
          (List.map (fun n => toString n.value)))) :=
  ⟨RTree.mapVal_encodes toString, XNode.xnodeEncodes, LNode.lnodeEncodes,
    by
      simp [simpletree, xdoc, RTree.mapVal, RTree.mapValList, XNode.abs, XNode.absList]
      decide,
    by
      simp [xdoc, XNode.abs, XNode.absList, LNode.abs, LNode.absChain, root, node2, node3,
        node4, node5]
      decide,
    claim7_representations_yield_identical_values
      RTree.children (fun t : RTree Nat => toString t.value) (RTree.mapVal toString) simpletree
      XNode.xchildren XNode.xget XNode.abs xdoc
      LNode.lchildren (fun n => toString n.value) LNode.abs root
      (RTree.mapVal_encodes toString) XNode.xnodeEncodes LNode.lnodeEncodes
      (by
        simp [simpletree, xdoc, RTree.mapVal, RTree.mapValList, XNode.abs, XNode.absList]
        decide)
      (by
        simp [xdoc, XNode.abs, XNode.absList, LNode.abs, LNode.absChain, root, node2, node3,
          node4, node5]
        decide)
      16⟩

/-- Claim C8: whenever the children relation is finite and acyclic
(embedded: the nodes form a rose tree), each traversal terminates — some
finite fuel suffices and the produced sequence is the total traversal —
while on a cyclic children relation (a node that is its own child) no
amount of fuel suffices for any of the three, there being no validation
of the input. -/
theorem claim8_termination_iff_finite_acyclic :
    (∀ (α : Type) (t : RTree α), ∃ fuel : Nat,
      preorderFuel RTree.children fuel [t] = some t.preorder ∧
      postorderFuel RTree.children fuel t = some t.postorder ∧
      levelorderFuel RTree.children fuel [t] = some t.levelorder) ∧
    (∀ fuel : Nat,
      preorderFuel (fun _ : Unit => [()]) fuel [()] = none ∧
      postorderFuel (fun _ : Unit => [()]) fuel () = none ∧
      levelorderFuel (fun _ : Unit => [()]) fuel [()] = none) := by
  constructor
  · intro α t
    refine ⟨RTree.size t, ?_, ?_, ?_⟩
    · have hs : RTree.sizeList [t] ≤ RTree.size t := by simp [RTree.sizeList]
      rw [preorderFuel_adequate _ _ hs, RTree.preorder]
    · exact (postorderFuel_adequate_all _).1 t (le_refl _)
    · have hs : RTree.sizeList [t] ≤ RTree.size t := by simp [RTree.sizeList]
      rw [levelorderFuel_adequate _ _ hs, RTree.levelorder]
  · intro fuel
    exact ⟨preorderFuel_cyclic fuel, postorderFuel_cyclic fuel, levelorderFuel_cyclic fuel⟩

/-- Counterexample to claim C9 as stated: for the one-node tree with
value `1` the claim predicts the output `"1\n"` with no other
characters, but `print_tree` writes `"1 \n"` — every value, the last
included, is followed by a space (`print(..., end=' ')`) before the
final newline. -/
theorem claim9_counterexample :
    print_tree (RTree.node 1 ([] : List (RTree Nat))) (fun t => toString t.value)
        RTree.children (fun n _ => RTree.preorder n) = "1 \n" ∧
    ("1 \n" : String) ≠ "1\n" := by
  constructor
  · simp [print_tree, RTree.preorder, RTree.preLoop, RTree.children, RTree.value]
    decide
  · decide

/-- Claim C9 (amended): for a traversal producing values `v1 .. vn` with
`n ≥ 1`, `print_tree` writes exactly `"v1 v2 ... vn \n"` — the values in
traversal order separated by single spaces, followed by one trailing
space and then the trailing newline (the code emits a space after every
value, the last included). -/
theorem claim9_print_tree_output {ν : Type} (node : ν) (value_func : ν → String)
    (children_func : ν → List ν) (traversal_func : ν → (ν → List ν) → List ν)
    (h : traversal_func node children_func ≠ []) :
    print_tree node value_func children_func traversal_func =
      String.intercalate " " ((traversal_func node children_func).map value_func) ++
        " " ++ "\n" := by
  rcases hl : traversal_func node children_func with _ | ⟨x, xs⟩
  · exact absurd hl h
  · have hm : (x :: xs).map (fun n => value_func n ++ " ") =
        (value_func x :: xs.map value_func).map (fun v => v ++ " ") := by
      simp [List.map_map]
    rw [print_tree, hl, hm, join_space_eq_intercalate, List.map_cons]

/-- Witness for the amended C9 at the concrete `simpletree` with the
preorder traversal. -/
theorem claim9_witness :
    ((fun (n : RTree Nat) (_ : RTree Nat → List (RTree Nat)) => RTree.preorder n) simpletree
        RTree.children ≠ []) ∧
    print_tree simpletree (fun t => toString t.value) RTree.children
        (fun n _ => RTree.preorder n) =
      String.intercalate " "
          (((fun (n : RTree Nat) (_ : RTree Nat → List (RTree Nat)) => RTree.preorder n)
              simpletree RTree.children).map (fun t => toString t.value)) ++ " " ++ "\n" :=
  ⟨by simp [RTree.preorder, RTree.preLoop, simpletree, RTree.children],
    claim9_print_tree_output simpletree (fun t => toString t.value) RTree.children
      (fun n _ => RTree.preorder n)
      (by simp [RTree.preorder, RTree.preLoop, simpletree, RTree.children])⟩

/-- Claim C10: if the children-accessor raises on the root, `preorder`
and `levelorder` still yield the root as the first (and only) element
before the exception propagates, whereas `postorder` propagates the
exception having yielded nothing. -/
theorem claim10_accessor_error_at_root {ν ε : Type} (children_func : ν → Except ε (List ν))
    (r : ν) (e : ε) (fuel : Nat) (h : children_func r = .error e) :
    preorderE children_func (fuel + 1) [r] = ([r], some e) ∧
    levelorderE children_func (fuel + 1) [r] = ([r], some e) ∧
    postorderE children_func (fuel + 1) r = ([], some e) := by
  refine ⟨?_, ?_, ?_⟩
  · rw [preorderE, h]
  · rw [levelorderE, h]
  · rw [postorderE, h]

/-- Witness for C10 at a concrete failing accessor over `Unit` nodes. -/
theorem claim10_witness :
    ((fun _ : Unit => (Except.error 7 : Except Nat (List Unit))) () = Except.error 7) ∧
    preorderE (fun _ : Unit => (Except.error 7 : Except Nat (List Unit))) 1 [()] =
      ([()], some 7) ∧
    levelorderE (fun _ : Unit => (Except.error 7 : Except Nat (List Unit))) 1 [()] =
      ([()], some 7) ∧
    postorderE (fun _ : Unit => (Except.error 7 : Except Nat (List Unit))) 1 () =
      ([], some 7) :=
  ⟨rfl, claim10_accessor_error_at_root (fun _ : Unit => Except.error 7) () 7 0 rfl⟩

